import Mathlib

/-!
Verification of the PITvolut statement-parsing and tax-computation engine.

The Python source (`src/pitvolut/core/models.py`, `src/pitvolut/core/pdf_processor.py`)
is shallowly embedded below.  Strings are modelled as `List Char`; Python `Decimal`
values as `ℚ` (the operations used — multiplication, subtraction, `max` — are exact);
Python `re` is modelled by a small backtracking engine over an AST holding exactly
the constructs the source patterns use, with the backtracking priority order of
Python's engine (greedy repetitions longest-first, lazy shortest-first, optional
present-first, concatenation depth-first).  Character classes such as `\d`, `\s`
are modelled over their ASCII members.
-/

set_option maxRecDepth 10000

abbrev Str := List Char

/-- Capture environment of a regex match: group index to captured text. -/
abbrev Caps := Nat → Option Str

def capsEmpty : Caps := fun _ => none

def capsSet (k : Caps) (i : Nat) (v : Str) : Caps :=
  fun j => if j = i then some v else k j

/-- ASCII digit, the members of `\d` relevant here. -/
def pyDigit (c : Char) : Bool := c.isDigit

/-- Members of `[A-Za-z]`. -/
def pyAlpha (c : Char) : Bool := c.isAlpha

/-- Members of `[A-Z]`. -/
def pyUpper (c : Char) : Bool := c.isUpper

/-- Members of `[A-Z0-9]`. -/
def pyUpperDigit (c : Char) : Bool := c.isUpper || c.isDigit

/-- Members of `\s` (ASCII): space, tab, newline, carriage return, vertical tab, form feed. -/
def pyWs (c : Char) : Bool :=
  c = ' ' || c = '\t' || c = '\n' || c = '\r' || c = '\x0b' || c = '\x0c'

/-- Members of `[^\n]`. -/
def pyNotNl (c : Char) : Bool := c ≠ '\n'

/-- Members of `.` under `re.DOTALL`. -/
def pyAny (_ : Char) : Bool := true

/-- Regex AST covering the constructs used by the source's patterns. -/
inductive RE where
  | eps : RE
  | lit : Char → RE
  | cls : (Char → Bool) → RE
  | seq : RE → RE → RE
  | grp : Nat → RE → RE
  | opt : RE → RE
  | many1G : (Char → Bool) → RE
  | many0G : (Char → Bool) → RE
  | many1L : (Char → Bool) → RE
  | many0L : (Char → Bool) → RE
  | repN : Nat → (Char → Bool) → RE

/-- Length of the maximal run of `p`-characters at the head of `s`. -/
def runLen (p : Char → Bool) (s : Str) : Nat := (s.takeWhile p).length

/-- Residual suffixes after a greedy one-or-more repetition, longest consumption first. -/
def dropsG (p : Char → Bool) (s : Str) : List Str :=
  (List.range (runLen p s)).map (fun j => s.drop (runLen p s - j))

/-- Residual suffixes after a lazy one-or-more repetition, shortest consumption first. -/
def dropsL (p : Char → Bool) (s : Str) : List Str :=
  (List.range (runLen p s)).map (fun j => s.drop (j + 1))

/-- Text consumed by a match that reduced `s` to the suffix `rest`. -/
def consumedOf (s rest : Str) : Str := s.take (s.length - rest.length)

/-- All ways a regex can match a prefix of `s`, as (captures, residual suffix) pairs
in Python's backtracking priority order; the head is the match Python's engine picks. -/
def mtch : RE → Caps → Str → List (Caps × Str)
  | .eps, k, s => [(k, s)]
  | .lit c, k, s =>
    match s with
    | [] => []
    | x :: xs => if x = c then [(k, xs)] else []
  | .cls p, k, s =>
    match s with
    | [] => []
    | x :: xs => if p x then [(k, xs)] else []
  | .seq a b, k, s => (mtch a k s).flatMap (fun r => mtch b r.1 r.2)
  | .grp i a, k, s => (mtch a k s).map (fun r => (capsSet r.1 i (consumedOf s r.2), r.2))
  | .opt a, k, s => (mtch a k s) ++ [(k, s)]
  | .many1G p, k, s => (dropsG p s).map (fun r => (k, r))
  | .many0G p, k, s => (dropsG p s).map (fun r => (k, r)) ++ [(k, s)]
  | .many1L p, k, s => (dropsL p s).map (fun r => (k, r))
  | .many0L p, k, s => (k, s) :: (dropsL p s).map (fun r => (k, r))
  | .repN n p, k, s => if n ≤ runLen p s then [(k, s.drop n)] else []

/-- Residual suffixes of all matches, forgetting captures. -/
def resid : RE → Str → List Str
  | .eps, s => [s]
  | .lit c, s =>
    match s with
    | [] => []
    | x :: xs => if x = c then [xs] else []
  | .cls p, s =>
    match s with
    | [] => []
    | x :: xs => if p x then [xs] else []
  | .seq a b, s => (resid a s).flatMap (resid b)
  | .grp _ a, s => resid a s
  | .opt a, s => resid a s ++ [s]
  | .many1G p, s => dropsG p s
  | .many0G p, s => dropsG p s ++ [s]
  | .many1L p, s => dropsL p s
  | .many0L p, s => s :: dropsL p s
  | .repN n p, s => if n ≤ runLen p s then [s.drop n] else []

/-- Concatenation of a list of regexes. -/
def reCat (l : List RE) : RE := l.foldr RE.seq RE.eps

/-- Literal string regex. -/
def reStr (s : String) : RE := reCat (s.data.map RE.lit)

/-- Model of `re.finditer`: scan left to right, emit the leftmost match at each
position, resume after the matched text (advancing one position past an empty
match, and one position past any failure).  Fuel is `s.length + 1`, which the
recursion never exhausts. -/
def findIterAux (re : RE) : Nat → Str → List (Str × Caps)
  | 0, _ => []
  | fuel + 1, s =>
    match (mtch re capsEmpty s).head? with
    | some r =>
      let n := s.length - r.2.length
      (s.take n, r.1) ::
        (if n = 0 then
          (if s.isEmpty then [] else findIterAux re fuel s.tail)
        else findIterAux re fuel (s.drop n))
    | none =>
      if s.isEmpty then [] else findIterAux re fuel s.tail

def findIter (re : RE) (s : Str) : List (Str × Caps) :=
  findIterAux re (s.length + 1) s

/-- Model of `re.search`: the leftmost match, as (matched text, captures). -/
def reSearchAux (re : RE) : Nat → Str → Option (Str × Caps)
  | 0, _ => none
  | fuel + 1, s =>
    match (mtch re capsEmpty s).head? with
    | some r => some (s.take (s.length - r.2.length), r.1)
    | none =>
      if s.isEmpty then none else reSearchAux re fuel s.tail

def reSearch (re : RE) (s : Str) : Option (Str × Caps) :=
  reSearchAux re (s.length + 1) s

/-- Accumulator pass of `pySplit`: `cur` is the reversed word being read. -/
def pySplitAux (cur : Str) (s : Str) : List Str :=
  match s with
  | [] => if cur = [] then [] else [cur.reverse]
  | c :: cs =>
    if pyWs c then
      if cur = [] then pySplitAux [] cs else cur.reverse :: pySplitAux [] cs
    else pySplitAux (c :: cur) cs

/-- Python `str.split()` with no argument: split on whitespace runs, dropping empties. -/
def pySplit (s : Str) : List Str := pySplitAux [] s

/-- Python `str.strip()`: remove leading and trailing whitespace. -/
def pyStrip (s : Str) : Str := ((s.dropWhile pyWs).reverse.dropWhile pyWs).reverse

/-- Python `str.lower()` on the ASCII range. -/
def pyLower (s : Str) : Str := s.map Char.toLower

/-- Numeric value of a digit string. -/
def digitsToNat (s : Str) : Nat := s.foldl (fun a c => a * 10 + (c.toNat - 48)) 0

/-- Exact value of a `Decimal` literal of the shape `digits` or `digits.digits`. -/
def parseDec (s : Str) : ℚ :=
  let ip := s.takeWhile (fun c => c ≠ '.')
  match s.dropWhile (fun c => c ≠ '.') with
  | [] => (digitsToNat ip : ℚ)
  | _ :: fp => (digitsToNat ip : ℚ) + (digitsToNat fp : ℚ) / (10 : ℚ) ^ fp.length

/-- Month abbreviations recognised by `strptime`'s `%b` directive (C locale). -/
def monthAbbrNames : List Str :=
  ["Jan", "Feb", "Mar", "Apr", "May", "Jun",
   "Jul", "Aug", "Sep", "Oct", "Nov", "Dec"].map String.data

/-- Full month names recognised by `strptime`'s `%B` directive (C locale). -/
def monthFullNames : List Str :=
  ["January", "February", "March", "April", "May", "June", "July",
   "August", "September", "October", "November", "December"].map String.data

/-- Case-insensitive test that `p` begins `s`, as `strptime`'s IGNORECASE month match. -/
def ciBegins (p s : Str) : Bool := (pyLower p).isPrefixOf (pyLower s)

/-- First month name (1-based, offset by `idx`) beginning `s`, with the rest of `s`. -/
def matchMonthAux (names : List Str) (idx : Nat) (s : Str) : Option (Nat × Str) :=
  match names with
  | [] => none
  | n :: rest =>
    if ciBegins n s then some (idx + 1, s.drop n.length)
    else matchMonthAux rest (idx + 1) s

def isLeap (y : Nat) : Bool := y % 4 = 0 && (y % 100 ≠ 0 || y % 400 = 0)

def daysInMonth (y m : Nat) : Nat :=
  if m = 2 then (if isLeap y then 29 else 28)
  else if m = 4 || m = 6 || m = 9 || m = 11 then 30
  else 31

/-- Model of `datetime.strptime(s, "%d <month directive> %Y")`, parameterised by the
month-name table: a 1-2 digit day, whitespace, a month name (case-insensitive),
whitespace, a 1-4 digit year consuming the rest of the string, then the calendar
validation `datetime.__init__` performs.  Returns `(year, month, day)`. -/
def strptimeDMY (names : List Str) (s : Str) : Option (Nat × Nat × Nat) :=
  let dayDigits := (s.takeWhile pyDigit).take 2
  if dayDigits.isEmpty then none
  else
    let afterDay := s.drop dayDigits.length
    let ws1 := afterDay.takeWhile pyWs
    if ws1.isEmpty then none
    else
      match matchMonthAux names 0 (afterDay.drop ws1.length) with
      | none => none
      | some (m, afterMon) =>
        let ws2 := afterMon.takeWhile pyWs
        if ws2.isEmpty then none
        else
          let ds := afterMon.drop ws2.length
          if ds.isEmpty || !ds.all pyDigit || 4 < ds.length then none
          else
            let y := digitsToNat ds
            let d := digitsToNat dayDigits
            if y = 0 || d = 0 || daysInMonth y m < d then none
            else some (y, m, d)

def strptimeShort (s : Str) : Option (Nat × Nat × Nat) := strptimeDMY monthAbbrNames s

def strptimeFull (s : Str) : Option (Nat × Nat × Nat) := strptimeDMY monthFullNames s

/-- Table mapping non-standard month tokens to canonical abbreviations
(`month_mapping` in `standardize_date`). -/
def month_mapping : List (Str × Str) :=
  [("Sept", "Sep"), ("Sept.", "Sep"), ("March", "Mar"), ("April", "Apr"),
   ("June", "Jun"), ("July", "Jul"), ("August", "Aug"), ("October", "Oct"),
   ("November", "Nov"), ("December", "Dec")].map (fun r => (r.1.data, r.2.data))

/-- `PitvolutPDFProcessor.standardize_date`: split the token on whitespace; when it
has exactly three parts and the middle one is a known non-standard month token,
replace it and re-join with single spaces; otherwise return the token unchanged. -/
def standardize_date (s : Str) : Str :=
  match pySplit s with
  | [a, b, c] =>
    match List.lookup b month_mapping with
    | some v => List.intercalate [' '] [a, v, c]
    | none => s
  | _ => s

/-- Date conversion in `parse_transactions` (lines 127-131): parse the standardized
token with `"%d %b %Y"` first, and on failure parse the original token with
`"%d %B %Y"`. -/
def parseDateToken (tok : Str) : Option (Nat × Nat × Nat) :=
  match strptimeShort (standardize_date tok) with
  | some d => some d
  | none => strptimeFull tok

/-- The `DividendTransaction` model (`models.py` lines 7-25).  Dates are
`(year, month, day)` triples; `Decimal` fields are exact rationals. -/
structure DividendTransaction where
  date : Nat × Nat × Nat
  security_name : Str
  symbol : Str
  isin : Str
  country : Str
  gross_amount_usd : ℚ
  gross_amount_pln : ℚ
  gross_tax : ℚ := 0
  exchange_rate : ℚ
  withholding_tax_usd : ℚ
  withholding_tax_pln : ℚ
  net_amount_usd : ℚ
  net_amount_pln : ℚ
  raw_text : Str
  transaction_type : Str := []
  tax_to_pay_pln : ℚ := 0
  deriving DecidableEq, Repr

/-- Python substring containment `needle in hay`. -/
def strContains (needle hay : Str) : Bool :=
  needle.isPrefixOf hay ||
    match hay with
    | [] => false
    | _ :: tail => strContains needle tail

/-- `DividendTransaction.determine_transaction_type` (lines 32-36). -/
def determine_transaction_type (t : DividendTransaction) : DividendTransaction :=
  if strContains "dividend".data (pyLower t.security_name) then
    { t with transaction_type := "dividend".data }
  else
    { t with transaction_type := "other".data }

/-- `DividendTransaction.calculate_tax` (lines 38-43). -/
def calculate_tax (t : DividendTransaction) : DividendTransaction :=
  let tax_rate : ℚ := 19 / 100
  let g := t.gross_amount_pln * tax_rate
  { t with gross_tax := g, tax_to_pay_pln := max (g - t.withholding_tax_pln) 0 }

/-- `DividendTransaction.process_transaction` (lines 27-30). -/
def process_transaction (t : DividendTransaction) : DividendTransaction :=
  let t1 := determine_transaction_type t
  if t1.transaction_type = "dividend".data then calculate_tax t1 else t1

/-- Defaulting of the optional local-currency withholding tax (lines 122-124):
`if tax_pln is None or tax_pln == "": tax_pln = "0.00"`. -/
def defaultTaxPln (v : Option Str) : Str :=
  match v with
  | none => "0.00".data
  | some s => if s = [] then "0.00".data else s

/-- Record construction in the body of the `parse_transactions` loop (lines 117-147):
unpack the twelve captures, default an absent or empty local-currency withholding
tax to `"0.00"`, parse the date with the two-attempt strategy, and build the
record; a `none` result models the exception caught by the surrounding `try`. -/
def buildTransaction (m : Str) (k : Caps) : Option DividendTransaction :=
  match k 1, k 2, k 3, k 4, k 5, k 6, k 7, k 8, k 9, k 11, k 12 with
  | some dateStr, some sec, some sym, some isinStr, some countryStr, some gUsd,
      some gPln, some rate, some tUsd, some nUsd, some nPln =>
    match parseDateToken dateStr with
    | none => none
    | some d =>
      some { date := d
             security_name := pyStrip sec
             symbol := pyStrip sym
             isin := pyStrip isinStr
             country := pyStrip countryStr
             gross_amount_usd := parseDec gUsd
             gross_amount_pln := parseDec gPln
             exchange_rate := parseDec rate
             withholding_tax_usd := parseDec tUsd
             withholding_tax_pln := parseDec (defaultTaxPln (k 10))
             net_amount_usd := parseDec nUsd
             net_amount_pln := parseDec nPln
             raw_text := m }
  | _, _, _, _, _, _, _, _, _, _, _ => none

/-- Regex `\d+\.\d+`. -/
def reDec : RE := reCat [.many1G pyDigit, .lit '.', .many1G pyDigit]

/-- The transaction pattern of `parse_transactions` (line 110). -/
def transactionRE : RE := reCat [
  .grp 1 (reCat [.many1G pyDigit, .lit ' ', .many1G pyAlpha, .opt (.lit '.'),
                 .lit ' ', .repN 4 pyDigit]),
  .many1G pyWs,
  .grp 2 (.many1L pyNotNl),
  .many1G pyWs,
  .grp 3 (.many1G pyUpper),
  .many0G pyWs,
  .lit '\n',
  .many0G pyWs,
  .grp 4 (.many1G pyUpperDigit),
  .many0G pyWs,
  .grp 5 (.many1G pyUpper),
  .many1G pyWs,
  reStr "US$",
  .grp 6 reDec,
  .many1G pyWs,
  .grp 7 reDec,
  .many1G pyWs,
  reStr "PLN",
  .many1G pyWs,
  reStr "Rate:",
  .many1G pyWs,
  .grp 8 reDec,
  .many0G pyWs,
  reStr "US$",
  .grp 9 (reCat [.many1G pyDigit, .opt (reCat [.lit '.', .many1G pyDigit])]),
  .many1G pyWs,
  .opt (reCat [.opt (.grp 10 reDec), .many0G pyWs, reStr "PLN"]),
  reStr "US$",
  .grp 11 reDec,
  .many1G pyWs,
  .grp 12 reDec,
  .many1G pyWs,
  reStr "PLN"]

/-- `PitvolutPDFProcessor.parse_transactions` (lines 105-153): build a record from
every occurrence of the transaction pattern, in text order; occurrences whose
record construction fails are dropped and their matched text is collected as the
emitted diagnostic. -/
def parse_transactions (text : Str) : List DividendTransaction × List Str :=
  (findIter transactionRE text).foldl
    (fun acc r =>
      match buildTransaction r.1 r.2 with
      | some t => (acc.1 ++ [t], acc.2)
      | none => (acc.1, acc.2 ++ [r.1]))
    ([], [])

/-- Period pattern of `extract_metadata` (line 52). -/
def periodRE : RE :=
  .grp 1 (reCat [.many1G pyDigit, .lit ' ', .many1G pyAlpha, .lit ' ', .repN 4 pyDigit,
                 reStr " - ",
                 .many1G pyDigit, .lit ' ', .many1G pyAlpha, .lit ' ', .repN 4 pyDigit])

/-- Generation-date pattern of `extract_metadata` (line 57). -/
def genDateRE : RE :=
  reCat [reStr "Generated on the ",
         .grp 1 (reCat [.many1G pyDigit, .lit ' ', .many1G pyAlpha, .lit ' ',
                        .repN 4 pyDigit])]

/-- Account-holder pattern of `extract_metadata` (line 62). -/
def holderRE : RE :=
  reCat [.lit 'Â', .lit '©', .many1G pyWs, reStr "Revolut", .many1G pyWs, reStr "Ltd",
         .grp 1 (.many1G (fun c => pyUpper c || pyWs c))]

/-- Summary pattern of `extract_metadata` (line 67), compiled with `re.DOTALL`. -/
def summaryRE : RE :=
  reCat [reStr "Summary for Brokerage Account - USD",
         .grp 1 (.many0L pyAny),
         reStr "This statement is provided by"]

/-- The metadata dictionary built by `extract_metadata`: a key is present exactly
when its pattern matched. -/
structure StatementMetadata where
  period : Option Str
  generation_date : Option Str
  account_holder : Option Str
  summary_text : Option Str

/-- Text of capture group 1 of a search result. -/
def grp1Of (r : Str × Caps) : Str := (r.2 1).getD []

/-- `PitvolutPDFProcessor.extract_metadata` (lines 39-71). -/
def extract_metadata (text : Str) : StatementMetadata :=
  { period := (reSearch periodRE text).map grp1Of
    generation_date := (reSearch genDateRE text).map grp1Of
    account_holder := (reSearch holderRE text).map (fun r => pyStrip (grp1Of r))
    summary_text := (reSearch summaryRE text).map (fun r => pyStrip (grp1Of r)) }

/-- The `RevolutStatement` model (`models.py` lines 46-53). -/
structure RevolutStatement where
  period : Str
  generation_date : Str
  account_holder : Str
  summary_text : Str
  transactions : List DividendTransaction
  deriving DecidableEq, Repr

/-- `PitvolutPDFProcessor.process` (lines 155-172) after the external text
extraction: metadata fields default to the empty string when their pattern did
not match, and the transaction list is the one `parse_transactions` produced. -/
def processStatement (text : Str) : RevolutStatement :=
  let md := extract_metadata text
  { period := md.period.getD []
    generation_date := md.generation_date.getD []
    account_holder := md.account_holder.getD []
    summary_text := md.summary_text.getD []
    transactions := (parse_transactions text).1 }

/-- The derived-field operations a record can undergo after construction. -/
inductive TxOp where
  | classify : TxOp
  | taxCalc : TxOp
  | fullPass : TxOp

def applyOp (o : TxOp) (t : DividendTransaction) : DividendTransaction :=
  match o with
  | .classify => determine_transaction_type t
  | .taxCalc => calculate_tax t
  | .fullPass => process_transaction t

def applyOps (ops : List TxOp) (t : DividendTransaction) : DividendTransaction :=
  ops.foldl (fun t o => applyOp o t) t

/-- Sample well-formed transaction block with the optional PLN withholding tax. -/
def txText1 : Str :=
  "1 Sep 2024 Apple Inc Dividend AAPL\nUS0378331005 US US$10.00 40.00 PLN Rate: 4.0000US$1.50 6.00 PLNUS$8.50 34.00 PLN".data

/-- Sample block matching the transaction pattern whose month word parses under
neither date format, so record construction fails. -/
def txTextBad : Str :=
  "3 Foo 2024 Evil Corp Dividend EVIL\nUS9999999999 US US$1.00 4.00 PLN Rate: 4.0000US$0.10 0.40 PLNUS$0.90 3.60 PLN".data

/-- Sample well-formed transaction block with the optional PLN withholding tax absent. -/
def txText2 : Str :=
  "2 Oct 2024 Microsoft Corp MSFT\nUS5949181045 US US$20.00 80.00 PLN Rate: 4.0000US$3.00 US$17.00 68.00 PLN".data

/-- Body with two well-formed transaction occurrences and one malformed candidate
interleaved between them. -/
def sampleBody : Str := txText1 ++ ('\n' :: txTextBad) ++ ('\n' :: txText2) ++ ['\n']

/-- The record the extractor builds from `txText1`. -/
def sampleTx1 : DividendTransaction :=
  { date := (2024, 9, 1)
    security_name := "Apple Inc Dividend".data
    symbol := "AAPL".data
    isin := "US0378331005".data
    country := "US".data
    gross_amount_usd := 10
    gross_amount_pln := 40
    exchange_rate := 4
    withholding_tax_usd := 3 / 2
    withholding_tax_pln := 6
    net_amount_usd := 17 / 2
    net_amount_pln := 34
    raw_text := txText1 }

/-- The record the extractor builds from `txText2`. -/
def sampleTx2 : DividendTransaction :=
  { date := (2024, 10, 2)
    security_name := "Microsoft Corp".data
    symbol := "MSFT".data
    isin := "US5949181045".data
    country := "US".data
    gross_amount_usd := 20
    gross_amount_pln := 80
    exchange_rate := 4
    withholding_tax_usd := 3
    withholding_tax_pln := 0
    net_amount_usd := 17
    net_amount_pln := 68
    raw_text := txText2 }

/-- The record of the worked tax example: an "Apple Inc Dividend" position with
gross_amount_pln = 100.00 and withholding_tax_pln = 15.00. -/
def appleTx : DividendTransaction :=
  { date := (2024, 9, 1)
    security_name := "Apple Inc Dividend".data
    symbol := "AAPL".data
    isin := "US0378331005".data
    country := "US".data
    gross_amount_usd := 25
    gross_amount_pln := 100
    exchange_rate := 4
    withholding_tax_usd := 15 / 4
    withholding_tax_pln := 15
    net_amount_usd := 85 / 4
    net_amount_pln := 85
    raw_text := txText1 }

/-- Sample text for the metadata patterns, with trailing whitespace inside the
greedy account-holder capture. -/
def metaText : Str :=
  "Â© Revolut LtdJOHN DOE \nx".data

/-- Captures of the transaction-pattern match on `txText2` (whose optional PLN
withholding-tax group does not participate). -/
def sampleCaps2 : Caps := ((findIter transactionRE txText2).headD ([], capsEmpty)).2

/-!
Lemmas about the regex engine, leading to the round-trip property: the text a
match consumed is itself matched by the pattern that consumed it.
-/

theorem runLen_le_length (p : Char → Bool) (s : Str) : runLen p s ≤ s.length :=
  (List.takeWhile_sublist p).length_le

theorem runLen_le_append (p : Char → Bool) (s t : Str) :
    runLen p s ≤ runLen p (s ++ t) := by
  induction s with
  | nil => simp [runLen]
  | cons c cs ih =>
    by_cases h : p c
    · simpa [runLen, List.takeWhile_cons, h] using ih
    · simp [runLen, List.takeWhile_cons, h]

theorem all_of_le_runLen (p : Char → Bool) (s : Str) (n : Nat) (h : n ≤ runLen p s) :
    ∀ c ∈ s.take n, p c = true := by
  induction s generalizing n with
  | nil => simp
  | cons a l ih =>
    cases n with
    | zero => simp
    | succ n =>
      by_cases hp : p a
      · simp only [runLen, List.takeWhile_cons, hp, if_true, List.length_cons] at h
        intro c hc
        rcases List.mem_cons.mp (by simpa using hc) with rfl | hc'
        · exact hp
        · exact ih n (by simpa [runLen] using Nat.le_of_succ_le_succ h) c hc'
      · simp [runLen, List.takeWhile_cons, hp] at h

theorem runLen_eq_length (p : Char → Bool) (s : Str) (h : ∀ c ∈ s, p c = true) :
    runLen p s = s.length := by
  induction s with
  | nil => simp [runLen]
  | cons a l ih =>
    have hp : p a = true := h a (List.mem_cons_self a l)
    simp [runLen, List.takeWhile_cons, hp] at ih ⊢
    exact ih (fun c hc => h c (List.mem_cons_of_mem a hc))

theorem mem_dropsG {p : Char → Bool} {s r : Str} :
    r ∈ dropsG p s ↔ ∃ i, 1 ≤ i ∧ i ≤ runLen p s ∧ r = s.drop i := by
  unfold dropsG
  simp only [List.mem_map, List.mem_range]
  constructor
  · rintro ⟨j, hj, rfl⟩
    exact ⟨runLen p s - j, by omega, by omega, rfl⟩
  · rintro ⟨i, h1, h2, rfl⟩
    refine ⟨runLen p s - i, by omega, ?_⟩
    have : runLen p s - (runLen p s - i) = i := by omega
    rw [this]

theorem mem_dropsL {p : Char → Bool} {s r : Str} :
    r ∈ dropsL p s ↔ ∃ i, 1 ≤ i ∧ i ≤ runLen p s ∧ r = s.drop i := by
  unfold dropsL
  simp only [List.mem_map, List.mem_range]
  constructor
  · rintro ⟨j, hj, rfl⟩
    exact ⟨j + 1, by omega, by omega, rfl⟩
  · rintro ⟨i, h1, h2, rfl⟩
    exact ⟨i - 1, by omega, by rw [Nat.sub_add_cancel h1]⟩

theorem mtch_map_snd (re : RE) (k : Caps) (s : Str) :
    (mtch re k s).map Prod.snd = resid re s := by
  induction re generalizing k s with
  | eps => rfl
  | lit c =>
    cases s with
    | nil => rfl
    | cons x xs => by_cases h : x = c <;> simp [mtch, resid, h]
  | cls p =>
    cases s with
    | nil => rfl
    | cons x xs => by_cases h : p x <;> simp [mtch, resid, h]
  | seq a b iha ihb =>
    show ((mtch a k s).flatMap fun r => mtch b r.1 r.2).map Prod.snd
        = (resid a s).flatMap (resid b)
    rw [List.map_flatMap]
    simp only [ihb]
    rw [← iha k s, List.flatMap_map]
  | grp i a iha =>
    show ((mtch a k s).map _).map Prod.snd = resid a s
    rw [List.map_map]
    exact iha k s
  | opt a iha =>
    show ((mtch a k s) ++ [(k, s)]).map Prod.snd = resid a s ++ [s]
    rw [List.map_append, iha]
    rfl
  | many1G p => simp [mtch, resid, List.map_map, Function.comp]
  | many0G p => simp [mtch, resid, List.map_map, Function.comp]
  | many1L p => simp [mtch, resid, List.map_map, Function.comp]
  | many0L p => simp [mtch, resid, List.map_map, Function.comp]
  | repN n p =>
    by_cases h : n ≤ runLen p s <;> simp [mtch, resid, h]

theorem resid_drop (re : RE) (s r : Str) (h : r ∈ resid re s) :
    ∃ n, n ≤ s.length ∧ r = s.drop n := by
  induction re generalizing s r with
  | eps =>
    simp only [resid, List.mem_singleton] at h
    exact ⟨0, Nat.zero_le _, by simpa using h⟩
  | lit c =>
    cases s with
    | nil => simp [resid] at h
    | cons x xs =>
      by_cases hx : x = c
      · simp only [resid, hx, if_true, List.mem_singleton] at h
        exact ⟨1, by simp, by simpa using h⟩
      · simp [resid, hx] at h
  | cls p =>
    cases s with
    | nil => simp [resid] at h
    | cons x xs =>
      by_cases hx : p x
      · simp only [resid, hx, if_true, List.mem_singleton] at h
        exact ⟨1, by simp, by simpa using h⟩
      · simp [resid, hx] at h
  | seq a b iha ihb =>
    simp only [resid, List.mem_flatMap] at h
    obtain ⟨r1, h1, h2⟩ := h
    obtain ⟨n1, hn1, rfl⟩ := iha s r1 h1
    obtain ⟨n2, hn2, rfl⟩ := ihb _ r h2
    refine ⟨n1 + n2, ?_, by rw [List.drop_drop]⟩
    have := List.length_drop n1 s
    omega
  | grp i a iha => exact iha s r h
  | opt a iha =>
    simp only [resid, List.mem_append, List.mem_singleton] at h
    rcases h with h | rfl
    · exact iha s r h
    · exact ⟨0, Nat.zero_le _, rfl⟩
  | many1G p =>
    obtain ⟨i, _, h2, rfl⟩ := mem_dropsG.mp h
    exact ⟨i, h2.trans (runLen_le_length p s), rfl⟩
  | many0G p =>
    simp only [resid, List.mem_append, List.mem_singleton] at h
    rcases h with h | rfl
    · obtain ⟨i, _, h2, rfl⟩ := mem_dropsG.mp h
      exact ⟨i, h2.trans (runLen_le_length p s), rfl⟩
    · exact ⟨0, Nat.zero_le _, rfl⟩
  | many1L p =>
    obtain ⟨i, _, h2, rfl⟩ := mem_dropsL.mp h
    exact ⟨i, h2.trans (runLen_le_length p s), rfl⟩
  | many0L p =>
    simp only [resid, List.mem_cons] at h
    rcases h with rfl | h
    · exact ⟨0, Nat.zero_le _, rfl⟩
    · obtain ⟨i, _, h2, rfl⟩ := mem_dropsL.mp h
      exact ⟨i, h2.trans (runLen_le_length p s), rfl⟩
  | repN n p =>
    by_cases hn : n ≤ runLen p s
    · simp only [resid, hn, if_true, List.mem_singleton] at h
      exact ⟨n, hn.trans (runLen_le_length p s), h⟩
    · simp [resid, hn] at h

theorem resid_append (re : RE) (s t r : Str) (h : r ∈ resid re s) :
    r ++ t ∈ resid re (s ++ t) := by
  induction re generalizing s r with
  | eps =>
    simp only [resid, List.mem_singleton] at h ⊢
    rw [h]
  | lit c =>
    cases s with
    | nil => simp [resid] at h
    | cons x xs =>
      by_cases hx : x = c
      · simp only [resid, hx, if_true, List.mem_singleton] at h
        simp [resid, hx, h]
      · simp [resid, hx] at h
  | cls p =>
    cases s with
    | nil => simp [resid] at h
    | cons x xs =>
      by_cases hx : p x
      · simp only [resid, hx, if_true, List.mem_singleton] at h
        simp [resid, hx, h]
      · simp [resid, hx] at h
  | seq a b iha ihb =>
    simp only [resid, List.mem_flatMap] at h ⊢
    obtain ⟨r1, h1, h2⟩ := h
    exact ⟨r1 ++ t, iha s r1 h1, ihb r1 r h2⟩
  | grp i a iha => exact iha s r h
  | opt a iha =>
    simp only [resid, List.mem_append, List.mem_singleton] at h ⊢
    rcases h with h | rfl
    · exact Or.inl (iha s r h)
    · exact Or.inr rfl
  | many1G p =>
    obtain ⟨i, h1, h2, rfl⟩ := mem_dropsG.mp h
    refine mem_dropsG.mpr ⟨i, h1, h2.trans (runLen_le_append p s t), ?_⟩
    rw [List.drop_append_of_le_length (h2.trans (runLen_le_length p s))]
  | many0G p =>
    simp only [resid, List.mem_append, List.mem_singleton] at h ⊢
    rcases h with h | rfl
    · obtain ⟨i, h1, h2, rfl⟩ := mem_dropsG.mp h
      refine Or.inl (mem_dropsG.mpr ⟨i, h1, h2.trans (runLen_le_append p s t), ?_⟩)
      rw [List.drop_append_of_le_length (h2.trans (runLen_le_length p s))]
    · exact Or.inr rfl
  | many1L p =>
    obtain ⟨i, h1, h2, rfl⟩ := mem_dropsL.mp h
    refine mem_dropsL.mpr ⟨i, h1, h2.trans (runLen_le_append p s t), ?_⟩
    rw [List.drop_append_of_le_length (h2.trans (runLen_le_length p s))]
  | many0L p =>
    simp only [resid, List.mem_cons] at h ⊢
    rcases h with rfl | h
    · exact Or.inl rfl
    · obtain ⟨i, h1, h2, rfl⟩ := mem_dropsL.mp h
      refine Or.inr (mem_dropsL.mpr ⟨i, h1, h2.trans (runLen_le_append p s t), ?_⟩)
      rw [List.drop_append_of_le_length (h2.trans (runLen_le_length p s))]
  | repN n p =>
    by_cases hn : n ≤ runLen p s
    · simp only [resid, hn, if_true, List.mem_singleton] at h
      have hn' : n ≤ runLen p (s ++ t) := hn.trans (runLen_le_append p s t)
      simp only [resid, hn', if_true, List.mem_singleton, h]
      rw [List.drop_append_of_le_length (hn.trans (runLen_le_length p s))]
    · simp [resid, hn] at h

theorem resid_restrict (re : RE) (m r : Str) (h : r ∈ resid re (m ++ r)) :
    [] ∈ resid re m := by
  induction re generalizing m r with
  | eps =>
    simp only [resid, List.mem_singleton] at h
    have hm : m = [] := by
      have hlen := congrArg List.length h
      rw [List.length_append] at hlen
      exact List.eq_nil_of_length_eq_zero (by omega)
    rw [hm]
    simp [resid]
  | lit c =>
    cases m with
    | nil =>
      exfalso
      cases r with
      | nil => simp [resid] at h
      | cons x xs =>
        by_cases hx : x = c
        · simp only [List.nil_append, resid, hx, if_true, List.mem_singleton] at h
          have := congrArg List.length h
          simp at this
        · simp [resid, hx] at h
    | cons y m' =>
      by_cases hy : y = c
      · simp only [List.cons_append, resid, hy, if_true, List.mem_singleton] at h
        have hm : m' = [] := by
          have hlen := congrArg List.length h
          rw [List.length_append] at hlen
          exact List.eq_nil_of_length_eq_zero (by omega)
        rw [hm]
        subst hy
        simp [resid]
      · simp [resid, hy] at h
  | cls p =>
    cases m with
    | nil =>
      exfalso
      cases r with
      | nil => simp [resid] at h
      | cons x xs =>
        by_cases hx : p x
        · simp only [List.nil_append, resid, hx, if_true, List.mem_singleton] at h
          have := congrArg List.length h
          simp at this
        · simp [resid, hx] at h
    | cons y m' =>
      by_cases hy : p y
      · simp only [List.cons_append, resid, hy, if_true, List.mem_singleton] at h
        have hm : m' = [] := by
          have hlen := congrArg List.length h
          rw [List.length_append] at hlen
          exact List.eq_nil_of_length_eq_zero (by omega)
        rw [hm]
        simp [resid, hy]
      · simp [resid, hy] at h
  | seq a b iha ihb =>
    simp only [resid, List.mem_flatMap] at h ⊢
    obtain ⟨r1, h1, h2⟩ := h
    obtain ⟨n1, hn1, hr1⟩ := resid_drop a (m ++ r) r1 h1
    obtain ⟨n2, hn2, hr2⟩ := resid_drop b r1 r h2
    have hL1 : r1.length = m.length + r.length - n1 := by rw [hr1]; simp
    have hL2 : r.length = r1.length - n2 := by rw [hr2]; simp
    have hn1' : n1 ≤ m.length + r.length := by simpa using hn1
    have hn1m : n1 ≤ m.length := by omega
    have hr1' : r1 = m.drop n1 ++ r := by
      rw [hr1, List.drop_append_of_le_length hn1m]
    have hsplit : m ++ r = m.take n1 ++ r1 := by
      rw [hr1', ← List.append_assoc, List.take_append_drop]
    rw [hsplit] at h1
    have ha1 : [] ∈ resid a (m.take n1) := iha _ _ h1
    have ha2 : m.drop n1 ∈ resid a m := by
      have := resid_append a (m.take n1) (m.drop n1) [] ha1
      simpa [List.take_append_drop] using this
    have hb : [] ∈ resid b (m.drop n1) := by
      apply ihb
      rw [← hr1']
      exact h2
    exact ⟨m.drop n1, ha2, hb⟩
  | grp i a iha => exact iha m r h
  | opt a iha =>
    simp only [resid, List.mem_append, List.mem_singleton] at h
    rcases h with h | h
    · exact List.mem_append_left _ (iha m r h)
    · have hm : m = [] := by
        have hlen := congrArg List.length h
        rw [List.length_append] at hlen
        exact List.eq_nil_of_length_eq_zero (by omega)
      rw [hm]
      simp [resid]
  | many1G p =>
    obtain ⟨i, hi1, hi2, hr⟩ := mem_dropsG.mp h
    have hilen : i ≤ m.length + r.length := by
      have := hi2.trans (runLen_le_length p (m ++ r))
      simpa using this
    have him : i = m.length := by
      have := congrArg List.length hr
      simp at this
      omega
    have hallm : ∀ c ∈ m, p c = true := by
      intro c hc
      apply all_of_le_runLen p (m ++ r) i hi2
      rw [List.take_left' him.symm]
      exact hc
    have hrun : runLen p m = m.length := runLen_eq_length p m hallm
    exact mem_dropsG.mpr ⟨m.length, by omega, by omega, by simp⟩
  | many0G p =>
    simp only [resid, List.mem_append, List.mem_singleton] at h ⊢
    rcases h with h | h
    · obtain ⟨i, hi1, hi2, hr⟩ := mem_dropsG.mp h
      have hilen : i ≤ m.length + r.length := by
        have := hi2.trans (runLen_le_length p (m ++ r))
        simpa using this
      have him : i = m.length := by
        have := congrArg List.length hr
        simp at this
        omega
      have hallm : ∀ c ∈ m, p c = true := by
        intro c hc
        apply all_of_le_runLen p (m ++ r) i hi2
        rw [List.take_left' him.symm]
        exact hc
      have hrun : runLen p m = m.length := runLen_eq_length p m hallm
      exact Or.inl (mem_dropsG.mpr ⟨m.length, by omega, by omega, by simp⟩)
    · have hm : m = [] := by
        have hlen := congrArg List.length h
        rw [List.length_append] at hlen
        exact List.eq_nil_of_length_eq_zero (by omega)
      rw [hm]
      exact Or.inr rfl
  | many1L p =>
    obtain ⟨i, hi1, hi2, hr⟩ := mem_dropsL.mp h
    have hilen : i ≤ m.length + r.length := by
      have := hi2.trans (runLen_le_length p (m ++ r))
      simpa using this
    have him : i = m.length := by
      have := congrArg List.length hr
      simp at this
      omega
    have hallm : ∀ c ∈ m, p c = true := by
      intro c hc
      apply all_of_le_runLen p (m ++ r) i hi2
      rw [List.take_left' him.symm]
      exact hc
    have hrun : runLen p m = m.length := runLen_eq_length p m hallm
    exact mem_dropsL.mpr ⟨m.length, by omega, by omega, by simp⟩
  | many0L p =>
    simp only [resid, List.mem_cons] at h ⊢
    rcases h with h | h
    · have hm : m = [] := by
        have hlen := congrArg List.length h
        rw [List.length_append] at hlen
        exact List.eq_nil_of_length_eq_zero (by omega)
      rw [hm]
      exact Or.inl rfl
    · obtain ⟨i, hi1, hi2, hr⟩ := mem_dropsL.mp h
      have hilen : i ≤ m.length + r.length := by
        have := hi2.trans (runLen_le_length p (m ++ r))
        simpa using this
      have him : i = m.length := by
        have := congrArg List.length hr
        simp at this
        omega
      have hallm : ∀ c ∈ m, p c = true := by
        intro c hc
        apply all_of_le_runLen p (m ++ r) i hi2
        rw [List.take_left' him.symm]
        exact hc
      have hrun : runLen p m = m.length := runLen_eq_length p m hallm
      exact Or.inr (mem_dropsL.mpr ⟨m.length, by omega, by omega, by simp⟩)
  | repN n p =>
    by_cases hn : n ≤ runLen p (m ++ r)
    · simp only [resid, hn, if_true, List.mem_singleton] at h
      have hnlen : n ≤ m.length + r.length := by
        have := hn.trans (runLen_le_length p (m ++ r))
        simpa using this
      have him : n = m.length := by
        have := congrArg List.length h
        simp at this
        omega
      have hallm : ∀ c ∈ m, p c = true := by
        intro c hc
        apply all_of_le_runLen p (m ++ r) n hn
        rw [List.take_left' him.symm]
        exact hc
      have hrun : runLen p m = m.length := runLen_eq_length p m hallm
      have hn' : n ≤ runLen p m := by omega
      simp only [resid, hn', if_true, List.mem_singleton]
      rw [him]
      simp
    · simp [resid, hn] at h

theorem findIterAux_matched (re : RE) (fuel : Nat) :
    ∀ (s m : Str) (k : Caps), (m, k) ∈ findIterAux re fuel s → [] ∈ resid re m := by
  induction fuel with
  | zero =>
    intro s m k h
    simp [findIterAux] at h
  | succ fuel ih =>
    intro s m k h
    unfold findIterAux at h
    cases hh : (mtch re capsEmpty s).head? with
    | some r =>
      rw [hh] at h
      simp only [List.mem_cons, Prod.mk.injEq] at h
      rcases h with ⟨hm, -⟩ | h
      · have hmem : r ∈ mtch re capsEmpty s := List.mem_of_mem_head? (Option.mem_def.mpr hh)
        have hsnd : r.2 ∈ resid re s := by
          rw [← mtch_map_snd re capsEmpty s]
          exact List.mem_map_of_mem Prod.snd hmem
        obtain ⟨n', hn', hdrop⟩ := resid_drop re s r.2 hsnd
        have hlen : r.2.length = s.length - n' := by rw [hdrop]; simp
        have hm' : m = s.take n' := by rw [hm]; congr 1; omega
        have hsp : s = m ++ r.2 := by rw [hm', hdrop, List.take_append_drop]
        apply resid_restrict re m r.2
        rw [← hsp]
        exact hsnd
      · by_cases hz : s.length - r.2.length = 0
        · rw [if_pos hz] at h
          by_cases he : s.isEmpty
          · rw [if_pos he] at h
            simp at h
          · rw [if_neg he] at h
            exact ih _ m k h
        · rw [if_neg hz] at h
          exact ih _ m k h
    | none =>
      rw [hh] at h
      by_cases he : s.isEmpty
      · rw [if_pos he] at h
        simp at h
      · rw [if_neg he] at h
        exact ih _ m k h

theorem reSearch_isSome_of_mtch {re : RE} {s : Str}
    (h : mtch re capsEmpty s ≠ []) : (reSearch re s).isSome = true := by
  unfold reSearch
  cases hh : (mtch re capsEmpty s).head? with
  | none =>
    exact absurd (List.head?_eq_none_iff.mp hh) h
  | some r => simp [reSearchAux, hh]

theorem foldl_build_aux (l : List (Str × Caps)) (acc : List DividendTransaction × List Str) :
    l.foldl (fun acc r =>
      match buildTransaction r.1 r.2 with
      | some t => (acc.1 ++ [t], acc.2)
      | none => (acc.1, acc.2 ++ [r.1])) acc
    = (acc.1 ++ l.filterMap (fun r => buildTransaction r.1 r.2),
       acc.2 ++ l.filterMap (fun r => match buildTransaction r.1 r.2 with
                                      | some _ => none
                                      | none => some r.1)) := by
  induction l generalizing acc with
  | nil => simp
  | cons x xs ih =>
    rw [List.foldl_cons, ih]
    cases hb : buildTransaction x.1 x.2 with
    | some t => simp [List.filterMap_cons, hb]
    | none => simp [List.filterMap_cons, hb]

theorem parse_transactions_eq (text : Str) :
    parse_transactions text
      = ((findIter transactionRE text).filterMap (fun r => buildTransaction r.1 r.2),
         (findIter transactionRE text).filterMap
           (fun r => match buildTransaction r.1 r.2 with
                     | some _ => none
                     | none => some r.1)) := by
  unfold parse_transactions
  rw [foldl_build_aux]
  simp

theorem mem_parse_transactions {text : Str} {t : DividendTransaction}
    (h : t ∈ (parse_transactions text).1) :
    ∃ r ∈ findIter transactionRE text, buildTransaction r.1 r.2 = some t := by
  rw [parse_transactions_eq] at h
  exact List.mem_filterMap.mp h

theorem buildTransaction_fields {m : Str} {k : Caps} {t : DividendTransaction}
    (h : buildTransaction m k = some t) :
    t.raw_text = m ∧ t.tax_to_pay_pln = 0 ∧ t.gross_tax = 0 ∧ t.transaction_type = [] := by
  unfold buildTransaction at h
  repeat split at h
  all_goals first
    | exact Option.noConfusion h
    | (injection h with h; rw [← h]; exact ⟨rfl, rfl, rfl, rfl⟩)

/-!
Lemmas about `pySplit` and `standardize_date`, leading to idempotence of the
date normalizer.
-/

theorem pySplitAux_no_ws (cur : Str) (s : Str) (hcur : ∀ c ∈ cur, pyWs c = false) :
    ∀ w ∈ pySplitAux cur s, w ≠ [] ∧ ∀ c ∈ w, pyWs c = false := by
  induction s generalizing cur with
  | nil =>
    intro w hw
    by_cases hc : cur = []
    · simp [pySplitAux, hc] at hw
    · simp only [pySplitAux, hc, if_false, List.mem_singleton] at hw
      subst hw
      refine ⟨by simpa using hc, ?_⟩
      intro c hcm
      exact hcur c (List.mem_reverse.mp hcm)
  | cons x xs ih =>
    intro w hw
    cases hx : pyWs x with
    | true =>
      by_cases hc : cur = []
      · rw [pySplitAux, if_pos hx, if_pos hc] at hw
        exact ih [] (by simp) w hw
      · rw [pySplitAux, if_pos hx, if_neg hc] at hw
        rcases List.mem_cons.mp hw with rfl | hw'
        · refine ⟨by simpa using hc, ?_⟩
          intro c hcm
          exact hcur c (List.mem_reverse.mp hcm)
        · exact ih [] (by simp) w hw'
    | false =>
      rw [pySplitAux, if_neg (by simp [hx])] at hw
      refine ih (x :: cur) ?_ w hw
      intro c hcm
      rcases List.mem_cons.mp hcm with rfl | hcm'
      · exact hx
      · exact hcur c hcm'

theorem pySplitAux_skip_word (w : Str) (hw : ∀ c ∈ w, pyWs c = false) (cur s : Str) :
    pySplitAux cur (w ++ s) = pySplitAux (w.reverse ++ cur) s := by
  induction w generalizing cur with
  | nil => simp
  | cons x xs ih =>
    have hx : pyWs x = false := hw x (List.mem_cons_self x xs)
    rw [List.cons_append, pySplitAux, if_neg (by simp [hx])]
    rw [ih (fun c hc => hw c (List.mem_cons_of_mem x hc)) (x :: cur)]
    congr 1
    simp

theorem pySplitAux_space (cur : Str) (hcur : cur ≠ []) (s : Str) :
    pySplitAux cur (' ' :: s) = cur.reverse :: pySplitAux [] s := by
  rw [pySplitAux, if_pos (by simp [pyWs]), if_neg hcur]

theorem pySplitAux_last (cur : Str) (hcur : cur ≠ []) :
    pySplitAux cur [] = [cur.reverse] := by
  rw [pySplitAux, if_neg hcur]

theorem pySplit_join3 (a b c : Str)
    (ha : a ≠ []) (hb : b ≠ []) (hc : c ≠ [])
    (ha' : ∀ x ∈ a, pyWs x = false) (hb' : ∀ x ∈ b, pyWs x = false)
    (hc' : ∀ x ∈ c, pyWs x = false) :
    pySplit (a ++ ' ' :: (b ++ ' ' :: c)) = [a, b, c] := by
  unfold pySplit
  have h1 := pySplitAux_skip_word a ha' [] (' ' :: (b ++ ' ' :: c))
  rw [List.append_nil] at h1
  rw [h1, pySplitAux_space a.reverse (by simpa using ha), List.reverse_reverse]
  have h2 := pySplitAux_skip_word b hb' [] (' ' :: c)
  rw [List.append_nil] at h2
  rw [h2, pySplitAux_space b.reverse (by simpa using hb), List.reverse_reverse]
  have h3 := pySplitAux_skip_word c hc' [] []
  rw [List.append_nil, List.append_nil] at h3
  rw [h3, pySplitAux_last c.reverse (by simpa using hc), List.reverse_reverse]

theorem month_mapping_value_props (b v : Str)
    (h : List.lookup b month_mapping = some v) :
    List.lookup v month_mapping = none ∧ v ≠ [] ∧ ∀ x ∈ v, pyWs x = false := by
  simp only [month_mapping, List.map_cons, List.map_nil, List.lookup] at h
  repeat' split at h
  all_goals first
    | exact Option.noConfusion h
    | (injection h with h; subst h; exact ⟨by decide, by decide, by decide⟩)

theorem standardize_date_idem (s : Str) :
    standardize_date (standardize_date s) = standardize_date s := by
  by_cases h : ∃ a b c v, pySplit s = [a, b, c] ∧ List.lookup b month_mapping = some v
  · obtain ⟨a, b, c, v, hP, hL⟩ := h
    have h1 : standardize_date s = a ++ ' ' :: (v ++ ' ' :: c) := by
      simp [standardize_date, hP, hL, List.intercalate]
    have hmem : ∀ w ∈ pySplit s, w ≠ [] ∧ ∀ x ∈ w, pyWs x = false :=
      pySplitAux_no_ws [] s (by simp)
    have ha := hmem a (by rw [hP]; exact List.mem_cons_self _ _)
    have hc := hmem c (by rw [hP]; simp)
    obtain ⟨hvn, hvne, hvw⟩ := month_mapping_value_props b v hL
    have hP2 : pySplit (a ++ ' ' :: (v ++ ' ' :: c)) = [a, v, c] :=
      pySplit_join3 a v c ha.1 hvne hc.1 ha.2 hvw hc.2
    rw [h1]
    simp [standardize_date, hP2, hvn]
  · have h1 : standardize_date s = s := by
      unfold standardize_date
      split
      · next a b c hP =>
        cases hL : List.lookup b month_mapping with
        | none => rfl
        | some v => exact absurd ⟨a, b, c, v, hP, hL⟩ h
      · rfl
    rw [h1]
    exact h1

/-!
Small facts about the derived-field operations.
-/

theorem determine_preserves_tax (t : DividendTransaction) :
    (determine_transaction_type t).tax_to_pay_pln = t.tax_to_pay_pln := by
  unfold determine_transaction_type
  split <;> rfl

theorem calculate_tax_value (t : DividendTransaction) :
    (calculate_tax t).tax_to_pay_pln
      = max (t.gross_amount_pln * (19 / 100) - t.withholding_tax_pln) 0 := rfl

theorem applyOp_tax_nonneg (o : TxOp) (t : DividendTransaction)
    (h : 0 ≤ t.tax_to_pay_pln) : 0 ≤ (applyOp o t).tax_to_pay_pln := by
  cases o with
  | classify =>
    show 0 ≤ (determine_transaction_type t).tax_to_pay_pln
    rw [determine_preserves_tax]
    exact h
  | taxCalc =>
    show 0 ≤ (calculate_tax t).tax_to_pay_pln
    rw [calculate_tax_value]
    exact le_max_right _ _
  | fullPass =>
    show 0 ≤ (if (determine_transaction_type t).transaction_type = "dividend".data
              then calculate_tax (determine_transaction_type t)
              else determine_transaction_type t).tax_to_pay_pln
    split
    · rw [calculate_tax_value]
      exact le_max_right _ _
    · rw [determine_preserves_tax]
      exact h

theorem filterMap_partition_length (l : List (Str × Caps)) :
    (l.filterMap (fun r => buildTransaction r.1 r.2)).length
      + (l.filterMap (fun r => match buildTransaction r.1 r.2 with
            | some _ => none
            | none => some r.1)).length = l.length := by
  induction l with
  | nil => rfl
  | cons x xs ih =>
    cases hb : buildTransaction x.1 x.2 <;>
      simp [List.filterMap_cons, hb] <;> omega

/-!
The claims.  Concrete evaluations go through the kernel, so the rational
operations (irreducible by default) are made semireducible locally.
-/

section ClaimTheorems

attribute [local semireducible] Rat.add Rat.mul Rat.inv Rat.sub Rat.ofScientific

/-- C1: the claim says every record in the statement returned by `process` has
undergone the classify-then-calculate pass, so its category tag is "dividend" or
"other" and dividend records carry computed tax fields.  The code never calls
`process_transaction`: on a body whose first record's security name contains
"Dividend", the returned records still have the empty-string category tag and
zero in both derived tax fields. -/
theorem c1_no_derived_pass_runs :
    (processStatement sampleBody).transactions.map (fun t => t.transaction_type)
      = [[], []]
    ∧ (processStatement sampleBody).transactions.map (fun t => t.gross_tax) = [0, 0]
    ∧ (processStatement sampleBody).transactions.map (fun t => t.tax_to_pay_pln) = [0, 0]
    ∧ strContains "dividend".data (pyLower sampleTx1.security_name) = true
    ∧ (processStatement sampleBody).transactions ≠ [] := by
  refine ⟨by decide, by decide, by decide, by decide, by decide⟩

/-- C2: `process_transaction` sets the category to "dividend" exactly when the
security name contains "dividend" case-insensitively (else "other"); for
dividend records it sets gross_tax = gross_amount_pln × 0.19 and
tax_to_pay_pln = max(gross_tax − withholding_tax_pln, 0) in exact arithmetic,
and for other records both derived fields stay at zero. -/
theorem c2_classify_then_calculate (t : DividendTransaction)
    (h1 : t.gross_tax = 0) (h2 : t.tax_to_pay_pln = 0) :
    ((process_transaction t).transaction_type = "dividend".data
      ↔ strContains "dividend".data (pyLower t.security_name) = true)
    ∧ (strContains "dividend".data (pyLower t.security_name) = true →
        (process_transaction t).gross_tax = t.gross_amount_pln * (19 / 100)
        ∧ (process_transaction t).tax_to_pay_pln
            = max (t.gross_amount_pln * (19 / 100) - t.withholding_tax_pln) 0)
    ∧ (strContains "dividend".data (pyLower t.security_name) = false →
        (process_transaction t).transaction_type = "other".data
        ∧ (process_transaction t).gross_tax = 0
        ∧ (process_transaction t).tax_to_pay_pln = 0) := by
  by_cases hd : strContains "dividend".data (pyLower t.security_name) = true
  · refine ⟨?_, fun _ => ?_, fun hcon => absurd hd (by simp [hcon])⟩
    · simp [process_transaction, determine_transaction_type, calculate_tax, hd]
    · constructor <;>
        simp [process_transaction, determine_transaction_type, calculate_tax, hd]
  · have hd' : strContains "dividend".data (pyLower t.security_name) = false := by
      simpa using hd
    have hne : ("other".data : Str) ≠ "dividend".data := by decide
    have hdet : determine_transaction_type t
        = { t with transaction_type := "other".data } := by
      unfold determine_transaction_type
      rw [if_neg (by simp [hd'])]
    have hother : process_transaction t
        = { t with transaction_type := "other".data } := by
      show (if (determine_transaction_type t).transaction_type = "dividend".data
            then calculate_tax (determine_transaction_type t)
            else determine_transaction_type t) = _
      rw [hdet,
          if_neg (show ¬ (DividendTransaction.mk t.date t.security_name t.symbol
            t.isin t.country t.gross_amount_usd t.gross_amount_pln t.gross_tax
            t.exchange_rate t.withholding_tax_usd t.withholding_tax_pln
            t.net_amount_usd t.net_amount_pln t.raw_text "other".data
            t.tax_to_pay_pln).transaction_type = "dividend".data from hne)]
    refine ⟨?_, fun hcon => absurd hcon hd, fun _ => ?_⟩
    · rw [hother]
      constructor
      · intro hcon
        exact absurd hcon hne
      · intro hcon
        rw [hd'] at hcon
        exact absurd hcon (by decide)
    · rw [hother]
      exact ⟨rfl, h1, h2⟩

/-- C2 witness: the worked example — security name "Apple Inc Dividend",
gross_amount_pln = 100.00, withholding_tax_pln = 15.00 gives category
"dividend", gross_tax = 19.00 and tax_to_pay = 4.00 exactly. -/
theorem c2_witness :
    (process_transaction appleTx).transaction_type = "dividend".data
    ∧ (process_transaction appleTx).gross_tax = 19
    ∧ (process_transaction appleTx).tax_to_pay_pln = 4 := by
  obtain ⟨hiff, hdiv, -⟩ := c2_classify_then_calculate appleTx rfl rfl
  have hd : strContains "dividend".data (pyLower appleTx.security_name) = true := by
    decide
  obtain ⟨hg, ht⟩ := hdiv hd
  refine ⟨hiff.mpr hd, ?_, ?_⟩
  · rw [hg]
    decide
  · rw [ht]
    decide

/-- C3: every record built by the extractor has `tax_to_pay_pln = 0 ≥ 0` at
construction, and the field stays non-negative under any sequence of the
derived-field operations (classification, tax calculation, or the full pass). -/
theorem c3_tax_never_negative (text : Str) (ops : List TxOp) (t : DividendTransaction)
    (ht : t ∈ (parse_transactions text).1) :
    0 ≤ (applyOps ops t).tax_to_pay_pln := by
  obtain ⟨r, hr, hb⟩ := mem_parse_transactions ht
  obtain ⟨-, htax, -, -⟩ := buildTransaction_fields hb
  have h0 : 0 ≤ t.tax_to_pay_pln := by rw [htax]
  clear ht hb hr htax
  induction ops generalizing t with
  | nil => exact h0
  | cons o os ih =>
    show 0 ≤ (applyOps os (applyOp o t)).tax_to_pay_pln
    exact ih (applyOp o t) (applyOp_tax_nonneg o t h0)

/-- C3 witness: the first sample record, with one further tax-calculation run. -/
theorem c3_witness : 0 ≤ (applyOps [TxOp.taxCalc] sampleTx1).tax_to_pay_pln :=
  c3_tax_never_negative sampleBody [TxOp.taxCalc] sampleTx1 (by decide)

/-- C4: the extractor is total and best-effort: a body with no occurrence of the
transaction pattern yields no records and no diagnostics; the record list is
exactly the per-match build results in text order; every match yields either a
record or a diagnostic (none aborts the loop); and on the concrete body with two
well-formed occurrences and one malformed candidate interleaved it returns
exactly those two records, in order, with the malformed candidate's text as the
single emitted diagnostic. -/
theorem c4_extractor_best_effort (text : Str) :
    (findIter transactionRE text = [] → parse_transactions text = ([], []))
    ∧ (parse_transactions text).1
        = (findIter transactionRE text).filterMap (fun r => buildTransaction r.1 r.2)
    ∧ (parse_transactions text).1.length + (parse_transactions text).2.length
        = (findIter transactionRE text).length
    ∧ parse_transactions sampleBody = ([sampleTx1, sampleTx2], [txTextBad]) := by
  refine ⟨?_, ?_, ?_, by decide⟩
  · intro h
    rw [parse_transactions_eq, h]
    rfl
  · rw [parse_transactions_eq]
  · rw [parse_transactions_eq]
    exact filterMap_partition_length _

/-- C4 witness: a body with zero pattern occurrences yields the empty statement. -/
theorem c4_witness : parse_transactions "no transactions here".data = ([], []) :=
  (c4_extractor_best_effort "no transactions here".data).1 (by rfl)

/-- C5: date parsing is the two-attempt strategy — the normalized token is parsed
with the short-month format first, and only on failure is the original token
parsed with the full-month format; the token "1 Sept. 2024" normalizes to
"1 Sep 2024" and parses to 2024-09-01. -/
theorem c5_two_attempt_date (tok : Str) :
    (∀ d, strptimeShort (standardize_date tok) = some d → parseDateToken tok = some d)
    ∧ (strptimeShort (standardize_date tok) = none →
        parseDateToken tok = strptimeFull tok)
    ∧ standardize_date "1 Sept. 2024".data = "1 Sep 2024".data
    ∧ parseDateToken "1 Sept. 2024".data = some (2024, 9, 1) := by
  refine ⟨?_, ?_, by decide, by decide⟩
  · intro d h
    unfold parseDateToken
    rw [h]
  · intro h
    unfold parseDateToken
    rw [h]

/-- C5 witness: the worked date example through the theorem's first clause. -/
theorem c5_witness : parseDateToken "1 Sept. 2024".data = some (2024, 9, 1) :=
  (c5_two_attempt_date "1 Sept. 2024".data).1 (2024, 9, 1) (by decide)

/-- C6: when the optional local-currency withholding-tax capture is absent or
empty, the built record's withholding_tax_pln is exactly 0. -/
theorem c6_missing_tax_defaults (m : Str) (k : Caps)
    (h10 : k 10 = none ∨ k 10 = some [])
    (t : DividendTransaction) (hb : buildTransaction m k = some t) :
    t.withholding_tax_pln = 0 := by
  have hd : defaultTaxPln (k 10) = "0.00".data := by
    rcases h10 with h | h <;> rw [h] <;> rfl
  unfold buildTransaction at hb
  repeat split at hb
  all_goals first
    | exact Option.noConfusion hb
    | (injection hb with hb
       rw [← hb]
       show parseDec (defaultTaxPln (k 10)) = 0
       rw [hd]
       decide)

/-- C6 witness: the match on `txText2` has no group-10 capture, and the record
built from it carries a zero local-currency withholding tax. -/
theorem c6_witness : sampleCaps2 10 = none ∧ sampleTx2.withholding_tax_pln = 0 :=
  ⟨by decide,
   c6_missing_tax_defaults txText2 sampleCaps2 (Or.inl (by decide)) sampleTx2
     (by decide)⟩

/-- C7: round-trip — for every record the extractor produces from any text, the
stored raw_text (the exact matched slice) is itself matched by the transaction
pattern when re-run through the matcher alone. -/
theorem c7_roundtrip (text : Str) (t : DividendTransaction)
    (ht : t ∈ (parse_transactions text).1) :
    (reSearch transactionRE t.raw_text).isSome = true := by
  obtain ⟨r, hr, hb⟩ := mem_parse_transactions ht
  obtain ⟨hraw, -, -, -⟩ := buildTransaction_fields hb
  have hm : [] ∈ resid transactionRE r.1 :=
    findIterAux_matched transactionRE (text.length + 1) text r.1 r.2 hr
  apply reSearch_isSome_of_mtch
  intro hc
  have hres : resid transactionRE t.raw_text = [] := by
    rw [← mtch_map_snd transactionRE capsEmpty, hc]
    rfl
  rw [hraw] at hres
  rw [hres] at hm
  exact List.not_mem_nil _ hm

/-- C7 witness: the first sample record's raw text re-matches the pattern. -/
theorem c7_witness : (reSearch transactionRE sampleTx1.raw_text).isSome = true :=
  c7_roundtrip sampleBody sampleTx1 (by decide)

/-- C8: the date normalizer is idempotent, and a token whose month word is
already a canonical three-letter abbreviation is returned unchanged. -/
theorem c8_normalizer_idempotent (s : Str) :
    standardize_date (standardize_date s) = standardize_date s
    ∧ standardize_date "1 Sep 2024".data = "1 Sep 2024".data :=
  ⟨standardize_date_idem s, by decide⟩

/-- C9 counterexample: the account-holder pattern matches `metaText`, yet the
statement's account_holder field differs from the raw group-1 capture — the code
stores the capture stripped of surrounding whitespace. -/
theorem c9_counterexample :
    (reSearch holderRE metaText).isSome = true
    ∧ (processStatement metaText).account_holder
        ≠ ((reSearch holderRE metaText).map grp1Of).getD [] := by
  refine ⟨by decide, by decide⟩

/-- C9 (amended): each metadata field of the statement equals the single-regex
group-1 capture for its pattern — taken verbatim for the reporting period and
generation date, and stripped of surrounding whitespace for the account holder
and summary text — and defaults to the empty string when the pattern does not
match; a failed metadata match is never an error. -/
theorem c9_metadata_defaults (text : Str) :
    (processStatement text).period = ((reSearch periodRE text).map grp1Of).getD []
    ∧ (processStatement text).generation_date
        = ((reSearch genDateRE text).map grp1Of).getD []
    ∧ (processStatement text).account_holder
        = ((reSearch holderRE text).map (fun r => pyStrip (grp1Of r))).getD []
    ∧ (processStatement text).summary_text
        = ((reSearch summaryRE text).map (fun r => pyStrip (grp1Of r))).getD [] :=
  ⟨rfl, rfl, rfl, rfl⟩

/-- C10: frame property — `determine_transaction_type` changes only the
transaction_type field and `calculate_tax` changes only gross_tax and
tax_to_pay_pln; every other field is untouched by both operations. -/
theorem c10_frame (t : DividendTransaction) :
    ((determine_transaction_type t).date = t.date
      ∧ (determine_transaction_type t).security_name = t.security_name
      ∧ (determine_transaction_type t).symbol = t.symbol
      ∧ (determine_transaction_type t).isin = t.isin
      ∧ (determine_transaction_type t).country = t.country
      ∧ (determine_transaction_type t).gross_amount_usd = t.gross_amount_usd
      ∧ (determine_transaction_type t).gross_amount_pln = t.gross_amount_pln
      ∧ (determine_transaction_type t).gross_tax = t.gross_tax
      ∧ (determine_transaction_type t).exchange_rate = t.exchange_rate
      ∧ (determine_transaction_type t).withholding_tax_usd = t.withholding_tax_usd
      ∧ (determine_transaction_type t).withholding_tax_pln = t.withholding_tax_pln
      ∧ (determine_transaction_type t).net_amount_usd = t.net_amount_usd
      ∧ (determine_transaction_type t).net_amount_pln = t.net_amount_pln
      ∧ (determine_transaction_type t).raw_text = t.raw_text
      ∧ (determine_transaction_type t).tax_to_pay_pln = t.tax_to_pay_pln)
    ∧ ((calculate_tax t).date = t.date
      ∧ (calculate_tax t).security_name = t.security_name
      ∧ (calculate_tax t).symbol = t.symbol
      ∧ (calculate_tax t).isin = t.isin
      ∧ (calculate_tax t).country = t.country
      ∧ (calculate_tax t).gross_amount_usd = t.gross_amount_usd
      ∧ (calculate_tax t).gross_amount_pln = t.gross_amount_pln
      ∧ (calculate_tax t).exchange_rate = t.exchange_rate
      ∧ (calculate_tax t).withholding_tax_usd = t.withholding_tax_usd
      ∧ (calculate_tax t).withholding_tax_pln = t.withholding_tax_pln
      ∧ (calculate_tax t).net_amount_usd = t.net_amount_usd
      ∧ (calculate_tax t).net_amount_pln = t.net_amount_pln
      ∧ (calculate_tax t).raw_text = t.raw_text
      ∧ (calculate_tax t).transaction_type = t.transaction_type) := by
  constructor
  · unfold determine_transaction_type
    split <;>
      exact ⟨rfl, rfl, rfl, rfl, rfl, rfl, rfl, rfl, rfl, rfl, rfl, rfl, rfl, rfl, rfl⟩
  · exact ⟨rfl, rfl, rfl, rfl, rfl, rfl, rfl, rfl, rfl, rfl, rfl, rfl, rfl, rfl⟩

end ClaimTheorems
